import Mathlib

/-!
Verification of the duplicate-finder detection pipeline
(`duplicate_finder/duplicate_finder.py` and `duplicate_finder/utils.py`).

The Python program is shallowly embedded as follows.

* A file path is a `String`; a file content is a `List Nat` (its bytes).
* The filesystem is a `World`: `stat` returns the byte size recorded for a
  path (`none` models a raised `OSError`), `read` returns the content
  (`none` models a raised I/O error while opening/reading the file).
* Python `dict` values (built with `defaultdict(list)` and in-place
  `append`) are association lists `List (κ × List α)` that preserve both
  key insertion order and per-key append order; `insertAppend` is the
  `d[k].append(v)` operation.
* The SHA-256 digest of `utils.calc_file_sha256` is an abstract function
  `h : Content → String` of the file content; theorems that need
  collision-freeness state it as an explicit hypothesis.
* Thread-pool completion order (`as_completed`) is unspecified in the
  source, so the hash-merging loop takes the completion order as an
  explicit list; theorems quantify over permutations of the task list.
* Raised-and-caught exceptions are `Option`; the numeric conversion
  `int(float(number) * units[unit])` is modelled with exact rational
  arithmetic over naturals (floor of `digits * mult / 10 ^ fracLen`),
  which agrees with CPython except where IEEE double rounding loses
  precision.
* Python `sorted` on `Path` objects is modelled as `List.insertionSort`
  over the linear order on path strings (Python orders `Path` values
  lexicographically by their parts tuple; both are deterministic total
  orders on paths, and the claims under study depend only on that).
-/

namespace DupFinder

abbrev Path := String
abbrev Content := List Nat
abbrev Digest := String

/-- The filesystem as the pipeline observes it: `stat` gives the size
`p.stat().st_size` (with `none` for a raised `OSError`), `read` gives the
byte content obtained by the chunked reads (with `none` for a raised I/O
error). -/
structure World where
  stat : Path → Option Nat
  read : Path → Option Content

/-- Python `d[k].append(v)` on a `defaultdict(list)` represented as an
insertion-ordered association list: extend the existing entry for `k` in
place, or append a fresh entry at the end. -/
def insertAppend {κ α : Type} [DecidableEq κ] (k : κ) (v : α) :
    List (κ × List α) → List (κ × List α)
  | [] => [(k, [v])]
  | (k0, vs) :: rest =>
    if k = k0 then (k0, vs ++ [v]) :: rest
    else (k0, vs) :: insertAppend k v rest

/-- Membership of a value in the bucket stored under key `k`. -/
def bucketMem {κ α : Type} (k : κ) (v : α) (m : List (κ × List α)) : Prop :=
  ∃ vs, (k, vs) ∈ m ∧ v ∈ vs

/-- Truthiness of the Python `min_size` / `max_size` ints: `None` and `0`
are falsy, so `if min_size and size < min_size` skips the check for both. -/
def sizeTruthy : Option Nat → Bool
  | none => false
  | some m => decide (m ≠ 0)

/-- The `continue` condition `min_size and size < min_size` of
`_group_files_by_size`. -/
def minExcludes (mn : Option Nat) (size : Nat) : Bool :=
  match mn with
  | none => false
  | some m => decide (m ≠ 0) && decide (size < m)

/-- The `continue` condition `max_size and size > max_size` of
`_group_files_by_size`. -/
def maxExcludes (mx : Option Nat) (size : Nat) : Bool :=
  match mx with
  | none => false
  | some m => decide (m ≠ 0) && decide (m < size)

/-- The include-pattern rejection of `_group_files_by_size`: when the
pattern list is truthy and no pattern matches, the file is skipped.
`fm pat p` stands for `fnmatch.fnmatch(p.as_posix(), pattern)`. -/
def includeExcludes (fm : String → Path → Bool)
    (inc : Option (List String)) (p : Path) : Bool :=
  match inc with
  | none => false
  | some pats => !pats.isEmpty && !(pats.any (fun pat => fm pat p))

/-- The exclude-pattern rejection of `_group_files_by_size`: when the
pattern list is truthy and some pattern matches, the file is skipped. -/
def excludeExcludes (fm : String → Path → Bool)
    (exc : Option (List String)) (p : Path) : Bool :=
  match exc with
  | none => false
  | some pats => pats.any (fun pat => fm pat p)

/-- Whether one scanned file survives all the filters of
`_group_files_by_size`, given its statted size. -/
def passesFilters (fm : String → Path → Bool)
    (inc exc : Option (List String)) (mn mx : Option Nat)
    (p : Path) (size : Nat) : Bool :=
  !minExcludes mn size && !maxExcludes mx size &&
    !includeExcludes fm inc p && !excludeExcludes fm exc p

/-- The loop body of `_group_files_by_size`, processing the enumerated
files left to right while carrying the size buckets built so far. -/
def sizeScanAux (w : World) (fm : String → Path → Bool)
    (inc exc : Option (List String)) (mn mx : Option Nat)
    (acc : List (Nat × List Path)) : List Path → List (Nat × List Path)
  | [] => acc
  | p :: rest =>
    match w.stat p with
    | none => sizeScanAux w fm inc exc mn mx acc rest
    | some size =>
      if passesFilters fm inc exc mn mx p size then
        sizeScanAux w fm inc exc mn mx (insertAppend size p acc) rest
      else sizeScanAux w fm inc exc mn mx acc rest

/-- Stage 1, `DuplicateFinder._group_files_by_size`: walk the candidate
enumeration (the regular, non-symlink files yielded by `rglob`), skip the
files whose `stat` raises, apply size bounds and include/exclude patterns,
and append survivors to the bucket of their size. -/
def group_files_by_size (w : World) (fm : String → Path → Bool)
    (ps : List Path) (inc exc : Option (List String))
    (mn mx : Option Nat) : List (Nat × List Path) :=
  sizeScanAux w fm inc exc mn mx [] ps

/-- The task list of `_group_files_by_hash`: buckets with at least two
members, flattened in bucket order (`files_to_hash`). -/
def hashTasks (m : List (Nat × List Path)) : List Path :=
  (m.filter (fun kv => decide (1 < kv.2.length))).flatMap Prod.snd

/-- The loop body of the result merging in `_group_files_by_hash`,
processing futures in completion order while carrying the digest map. -/
def mergeHashesAux (w : World) (h : Content → Digest)
    (acc : List (Digest × List Path)) : List Path → List (Digest × List Path)
  | [] => acc
  | p :: rest =>
    match w.read p with
    | none => mergeHashesAux w h acc rest
    | some c =>
      if h c = "" then mergeHashesAux w h acc rest
      else mergeHashesAux w h (insertAppend (h c) p acc) rest

/-- The result-merging loop of `DuplicateFinder._group_files_by_hash`:
iterate over the futures in completion order; a raised hashing exception
(`read p = none`) is caught and the file skipped; a falsy (empty) digest
is skipped by `if file_hash:`; otherwise the path is appended to the
bucket of its digest. -/
def mergeHashes (w : World) (h : Content → Digest)
    (completed : List Path) : List (Digest × List Path) :=
  mergeHashesAux w h [] completed

/-- Stage 2, `DuplicateFinder._group_files_by_hash`, run under the
canonical schedule in which futures complete in submission order. -/
def group_files_by_hash (w : World) (h : Content → Digest)
    (m : List (Nat × List Path)) : List (Digest × List Path) :=
  mergeHashes w h (hashTasks m)

/-- Lexicographic comparison of two character lists by code point, with a
prefix ordered before its extensions — the order Python uses on each
component of a path. -/
def charListLe : List Char → List Char → Bool
  | [], _ => true
  | _ :: _, [] => false
  | x :: xs, y :: ys =>
    if x = y then charListLe xs ys else decide (x < y)

/-- The deterministic total order on paths under which Python `sorted`
arranges each group (Python orders `Path` objects lexicographically; a
path is represented here by its string). -/
def PathLe (a b : Path) : Prop := charListLe a.data b.data = true

instance : DecidableRel PathLe := fun a b =>
  (inferInstance : Decidable (charListLe a.data b.data = true))

/-- Python `sorted` over the paths of one group. -/
def sortPaths (g : List Path) : List Path :=
  g.insertionSort PathLe

/-- The sort key `Path(g[0]).stat().st_size` used by `sort_by_size`
(the source would raise if the stat failed; no studied claim exercises
that branch, so a failed stat is read as size 0 here). -/
def headStatSize (w : World) (g : List Path) : Nat :=
  match g.head? with
  | none => 0
  | some p => (w.stat p).getD 0

/-- The group-list comprehension of `_group_duplicates`:
`[sorted(group) for group in files.values() if len(group) > 1]`. -/
def baseGroups (m : List (Digest × List Path)) : List (List Path) :=
  ((m.map Prod.snd).filter (fun g => decide (1 < g.length))).map sortPaths

/-- Stage 3, `DuplicateFinder._group_duplicates`: keep the buckets with at
least two members, sort each bucket, then apply at most one of the two
optional group-list sorts (both descending, Python stable sort). -/
def group_duplicates (w : World) (m : List (Digest × List Path))
    (sortByGroup sortBySize : Bool) : List (List Path) :=
  if sortByGroup then
    (baseGroups m).insertionSort (fun a b => b.length ≤ a.length)
  else if sortBySize then
    (baseGroups m).insertionSort (fun a b => headStatSize w b ≤ headStatSize w a)
  else baseGroups m

/-- The helper `utils.files_are_identical`: compare sizes first (a raised
stat is `none`), then compare the two byte streams chunkwise; chunkwise
equality of the streams is equality of the contents. -/
def files_are_identical (w : World) (a b : Path) : Option Bool := do
  let sa ← w.stat a
  let sb ← w.stat b
  if sa ≠ sb then pure false
  else do
    let ca ← w.read a
    let cb ← w.read b
    pure (decide (ca = cb))

/-- The inner `while group:` loop of `DuplicateFinder._verify_content` for
one digest bucket: pop a reference, emit it followed by the members that
compare identical to it, keep the mismatches (and the members whose
comparison raised) for the next pass, and concatenate the passes. -/
def verifyPasses (w : World) : List Path → List Path
  | [] => []
  | ref :: rest =>
    let matched := rest.filter (fun o => files_are_identical w ref o = some true)
    let remaining := rest.filter (fun o => ¬(files_are_identical w ref o = some true))
    ref :: (matched ++ verifyPasses w remaining)
  termination_by l => l.length
  decreasing_by
    simp only [List.length_cons]
    exact Nat.lt_succ_of_le (List.length_filter_le _ rest)

/-- Stage 3.1, `DuplicateFinder._verify_content`: buckets with fewer than
two members are dropped (`continue`); every pass of every other bucket
appends to `verified[file_hash]`, i.e. to the single entry keyed by the
original digest. -/
def verify_content (w : World) (m : List (Digest × List Path)) :
    List (Digest × List Path) :=
  m.foldl
    (fun acc kv =>
      if kv.2.length < 2 then acc
      else (verifyPasses w kv.2).foldl (fun a p => insertAppend kv.1 p a) acc)
    []

/-- The whitespace class of the regexes (ASCII part of Python `\s`). -/
def isSpaceChar (c : Char) : Bool :=
  c = ' ' || c = '\t' || c = '\n' || c = '\r' || c.toNat = 11 || c.toNat = 12

/-- Numeric value of a list of decimal digit characters. -/
def digitsToNat (l : List Char) : Nat :=
  l.foldl (fun acc c => acc * 10 + (c.toNat - 48)) 0

/-- The number group `(\d*\.?\d*)` of the `_normalize_size` regex:
greedily take digits, one optional dot, then digits; the group may be
empty. Returns the matched characters and the rest of the input. -/
def parseNumberA (l : List Char) : List Char × List Char :=
  let s1 := l.span Char.isDigit
  match s1.2 with
  | '.' :: r2 =>
    let s2 := r2.span Char.isDigit
    (s1.1 ++ '.' :: s2.1, s2.2)
  | _ => (s1.1, s1.2)

/-- The unit group `[KMGT]?I?B` of the `_normalize_size` regex,
case-insensitive: an optional K/M/G/T letter, an optional I, and a
mandatory B. Returns the matched characters (uppercased) and the rest. -/
def parseUnitA (l : List Char) : Option (List Char × List Char) :=
  let step1 : List Char × List Char :=
    match l with
    | c :: rest =>
      if c.toUpper = 'K' || c.toUpper = 'M' || c.toUpper = 'G' || c.toUpper = 'T'
      then ([c.toUpper], rest) else ([], l)
    | [] => ([], l)
  let step2 : List Char × List Char :=
    match step1.2 with
    | c :: rest => if c.toUpper = 'I' then (step1.1 ++ ['I'], rest) else step1
    | [] => step1
  match step2.2 with
  | c :: rest => if c.toUpper = 'B' then some (step2.1 ++ ['B'], rest) else none
  | [] => none

/-- The anchored `_normalize_size` regex
`^\s*(\d*\.?\d*)\s*([KMGT]?I?B)?\s*$` (IGNORECASE): returns the number
group and the uppercased unit group (`[]` when the optional unit is
absent), or `none` when the string does not match. -/
def matchNormalizeA (s : String) : Option (List Char × List Char) :=
  let l0 := s.data.dropWhile isSpaceChar
  let num := parseNumberA l0
  let r2 := num.2.dropWhile isSpaceChar
  if r2.isEmpty then some (num.1, [])
  else
    match parseUnitA r2 with
    | none => none
    | some (unit, r3) =>
      if r3.all isSpaceChar then some (num.1, unit) else none

/-- The unit group `[KMGT]?I?B?` of the `str_file_size_to_int` regex: all
three parts optional. Returns the matched characters (uppercased) and the
rest. -/
def parseUnitB (l : List Char) : List Char × List Char :=
  let step1 : List Char × List Char :=
    match l with
    | c :: rest =>
      if c.toUpper = 'K' || c.toUpper = 'M' || c.toUpper = 'G' || c.toUpper = 'T'
      then ([c.toUpper], rest) else ([], l)
    | [] => ([], l)
  let step2 : List Char × List Char :=
    match step1.2 with
    | c :: rest => if c.toUpper = 'I' then (step1.1 ++ ['I'], rest) else step1
    | [] => step1
  match step2.2 with
  | c :: rest => if c.toUpper = 'B' then (step2.1 ++ ['B'], rest) else step2
  | [] => step2

/-- The multiplier table `units` of `utils.str_file_size_to_int`; `none`
models the `Unknown size unit` ValueError (e.g. for the unit `IB`, which
the regex admits but the table omits). -/
def unitValue : List Char → Option Nat
  | [] => some 1
  | ['B'] => some 1
  | ['K'] => some (10 ^ 3)
  | ['K', 'B'] => some (10 ^ 3)
  | ['M'] => some (10 ^ 6)
  | ['M', 'B'] => some (10 ^ 6)
  | ['G'] => some (10 ^ 9)
  | ['G', 'B'] => some (10 ^ 9)
  | ['T'] => some (10 ^ 12)
  | ['T', 'B'] => some (10 ^ 12)
  | ['K', 'I'] => some (2 ^ 10)
  | ['K', 'I', 'B'] => some (2 ^ 10)
  | ['M', 'I'] => some (2 ^ 20)
  | ['M', 'I', 'B'] => some (2 ^ 20)
  | ['G', 'I'] => some (2 ^ 30)
  | ['G', 'I', 'B'] => some (2 ^ 30)
  | ['T', 'I'] => some (2 ^ 40)
  | ['T', 'I', 'B'] => some (2 ^ 40)
  | _ => none

/-- Python `float(number)` restricted to the regex character class
`[\d.]+`: at least one digit and at most one dot, parsed into integer
digits and fractional digits; `none` models the ValueError float raises
on inputs such as `1.2.3` or a lone dot. -/
def parseFloatDigits (l : List Char) : Option (List Char × List Char) :=
  let s1 := l.span Char.isDigit
  match s1.2 with
  | [] => if s1.1.isEmpty then none else some (s1.1, [])
  | '.' :: r2 =>
    let s2 := r2.span Char.isDigit
    if s2.2.isEmpty then
      if s1.1.isEmpty && s2.1.isEmpty then none else some (s1.1, s2.1)
    else none
  | _ => none

/-- The value `int(float(number) * units[unit])` computed exactly: with
integer digits `i`, fractional digits `f` and multiplier `mult`, this is
`(digits (i ++ f) * mult) / 10 ^ |f|`, the floor of the non-negative
product (CPython rounds `float(number)` to an IEEE double first; the
studied claims do not depend on that rounding). -/
def scaledValue (ip fp : List Char) (mult : Nat) : Nat :=
  digitsToNat (ip ++ fp) * mult / 10 ^ fp.length

/-- The helper `utils.str_file_size_to_int`: full-match the stripped
string against `\s*([\d.]+)\s*([KMGT]?I?B?)?\s*`, look the uppercased
unit up in the table, and scale the number; `none` models a raised
ValueError. -/
def str_file_size_to_int (s : String) : Option Nat :=
  let l0 := s.data.dropWhile isSpaceChar
  let s1 := l0.span (fun c => c.isDigit || c = '.')
  if s1.1.isEmpty then none
  else
    let r2 := s1.2.dropWhile isSpaceChar
    let unit := parseUnitB r2
    if unit.2.all isSpaceChar then
      match unitValue unit.1, parseFloatDigits s1.1 with
      | some mult, some (ip, fp) => some (scaledValue ip fp mult)
      | _, _ => none
    else none

/-- The static method `DuplicateFinder._normalize_size`: `None` passes
through; otherwise the string must match the `_normalize_size` regex and
have a number group that is neither empty nor a lone dot, and is then
handed to `utils.str_file_size_to_int`. The outer `none` models a raised
ValueError (a fatal configuration error). -/
def normalize_size : Option String → Option (Option Nat)
  | none => some none
  | some s =>
    match matchNormalizeA s with
    | none => none
    | some (num, _) =>
      if num.isEmpty || num = ['.'] then none
      else
        match str_file_size_to_int s with
        | none => none
        | some n => some (some n)

/-- One observable event of the deletion stage: an actual `unlink` call,
or one line appended to the deletion report. -/
inductive DelEvent where
  | unlinkCall (p : Path)
  | deletedLine (p : Path)
  | failedLine (p : Path)
  | wouldDeleteLine (p : Path)
deriving DecidableEq, Repr

/-- The events `_delete_duplicates` produces for one non-keeper file: a
failed pre-deletion `stat` yields a FAILED line and skips the file
(`continue`); in dry-run mode the file gets one would-delete line and no
`unlink`; otherwise `unlink` is called and its outcome (`unlinkOk`)
chooses between a Deleted and a FAILED line. -/
def deleteFileEvents (w : World) (unlinkOk : Path → Bool) (dryRun : Bool)
    (p : Path) : List DelEvent :=
  match w.stat p with
  | none => [DelEvent.failedLine p]
  | some _ =>
    if dryRun then [DelEvent.wouldDeleteLine p]
    else if unlinkOk p then [DelEvent.unlinkCall p, DelEvent.deletedLine p]
    else [DelEvent.unlinkCall p, DelEvent.failedLine p]

/-- The events `_delete_duplicates` produces for one group: every member
after the first (`group[1:]`) is processed in order. -/
def deleteGroupEvents (w : World) (unlinkOk : Path → Bool) (dryRun : Bool)
    (g : List Path) : List DelEvent :=
  (g.drop 1).flatMap (deleteFileEvents w unlinkOk dryRun)

/-- Stage 4, `DuplicateFinder._delete_duplicates`: process the groups in
order, keeping the first member of each. -/
def delete_duplicates (w : World) (unlinkOk : Path → Bool) (dryRun : Bool)
    (groups : List (List Path)) : List DelEvent :=
  groups.flatMap (deleteGroupEvents w unlinkOk dryRun)

/-- The caller-visible outcome of one `run`: the returned duplicates
list, the internal `file_groups` state after stage 3.1, and the deletion
events. -/
structure RunResult where
  duplicates : List (List Path)
  fileGroupsAfter : List (Digest × List Path)
  events : List DelEvent
deriving DecidableEq, Repr

/-- The method `DuplicateFinder.run` (batch path; the interactive branch
is outside the studied claims): normalize the size bounds (a ValueError
is the outer `none`, raised before any scanning), run stages 1 and 2 with
the canonical completion schedule, group the duplicates, then — exactly
as the source does — clear `file_groups` and, when `verify_content` is
set, assign `_verify_content` of that cleared state to `file_groups`
while the returned `duplicates` stay untouched.  Deletion proceeds when
`dry_run` auto-confirms or the user answers yes. -/
def run (w : World) (h : Content → Digest) (unlinkOk : Path → Bool)
    (fm : String → Path → Bool) (ps : List Path)
    (inc exc : Option (List String)) (minStr maxStr : Option String)
    (sortByGroup sortBySize delete dryRun verify confirmYes : Bool) :
    Option RunResult :=
  match normalize_size minStr, normalize_size maxStr with
  | some mn, some mx =>
    let sizeMap := group_files_by_size w fm ps inc exc mn mx
    if sizeMap.isEmpty then some ⟨[], [], []⟩
    else
      let hashMap := group_files_by_hash w h sizeMap
      if hashMap.isEmpty then some ⟨[], [], []⟩
      else
        let dups := group_duplicates w hashMap sortByGroup sortBySize
        let fg : List (Digest × List Path) :=
          if verify then verify_content w [] else []
        if dups.isEmpty then some ⟨dups, fg, []⟩
        else
          let evs :=
            if delete && (dryRun || confirmYes) then
              delete_duplicates w unlinkOk dryRun dups
            else []
          some ⟨dups, fg, evs⟩
  | _, _ => none

/-! ### Order lemmas for the path order -/

theorem charListLe_refl (l : List Char) : charListLe l l = true := by
  induction l with
  | nil => rfl
  | cons x xs ih => simp [charListLe, ih]

theorem charListLe_total (a b : List Char) :
    charListLe a b = true ∨ charListLe b a = true := by
  induction a generalizing b with
  | nil => exact Or.inl rfl
  | cons x xs ih =>
    cases b with
    | nil => exact Or.inr rfl
    | cons y ys =>
      by_cases hxy : x = y
      · subst hxy
        simpa [charListLe] using ih ys
      · rcases lt_trichotomy x y with hlt | heq | hgt
        · exact Or.inl (by simp [charListLe, hxy, hlt])
        · exact absurd heq hxy
        · exact Or.inr (by simp [charListLe, Ne.symm hxy, hgt])

theorem charListLe_trans {a b c : List Char}
    (h1 : charListLe a b = true) (h2 : charListLe b c = true) :
    charListLe a c = true := by
  induction a generalizing b c with
  | nil => rfl
  | cons x xs ih =>
    cases b with
    | nil => simp [charListLe] at h1
    | cons y ys =>
      cases c with
      | nil => simp [charListLe] at h2
      | cons z zs =>
        by_cases hxy : x = y
        · subst hxy
          by_cases hyz : x = z
          · subst hyz
            simp only [charListLe, if_pos rfl] at h1 h2 ⊢
            exact ih h1 h2
          · simpa [charListLe, hyz] using (by simpa [charListLe, hyz] using h2)
        · have hlt1 : x < y := by
            simpa [charListLe, hxy] using h1
          by_cases hyz : y = z
          · subst hyz
            simp [charListLe, hxy, hlt1]
          · have hlt2 : y < z := by
              simpa [charListLe, hyz] using h2
            have hlt : x < z := lt_trans hlt1 hlt2
            simp [charListLe, ne_of_lt hlt, hlt]

instance : IsTotal Path PathLe :=
  ⟨fun a b => charListLe_total a.data b.data⟩

instance : IsTrans Path PathLe :=
  ⟨fun _ _ _ h1 h2 => charListLe_trans h1 h2⟩

instance : IsRefl Path PathLe :=
  ⟨fun a => charListLe_refl a.data⟩

theorem mem_sortPaths {p : Path} {g : List Path} :
    p ∈ sortPaths g ↔ p ∈ g :=
  List.mem_insertionSort PathLe

theorem sortPaths_perm (g : List Path) : (sortPaths g).Perm g :=
  List.perm_insertionSort PathLe g

theorem length_sortPaths (g : List Path) :
    (sortPaths g).length = g.length :=
  List.length_insertionSort PathLe g

theorem sorted_sortPaths (g : List Path) :
    List.Sorted PathLe (sortPaths g) :=
  List.sorted_insertionSort PathLe g

/-- In a `PathLe`-sorted list the head precedes every member. -/
theorem sorted_head_min {g : List Path} (hs : List.Sorted PathLe g)
    {hd : Path} (hh : g.head? = some hd) {p : Path} (hp : p ∈ g) :
    PathLe hd p := by
  cases g with
  | nil => cases hp
  | cons a l =>
    have ha : a = hd := by simpa using hh
    subst ha
    rcases List.mem_cons.mp hp with rfl | hl
    · exact refl_of PathLe p
    · exact (List.sorted_cons.mp hs).1 p hl

/-! ### Association-list lemmas -/

/-- Every value of every bucket of `m` satisfies `Q` at the bucket key. -/
def EntriesGood {κ α : Type} (Q : κ → α → Prop) (m : List (κ × List α)) : Prop :=
  ∀ kv ∈ m, ∀ x ∈ kv.2, Q kv.1 x

theorem entriesGood_insertAppend {κ α : Type} [DecidableEq κ]
    {Q : κ → α → Prop} {k : κ} {v : α} {m : List (κ × List α)}
    (hm : EntriesGood Q m) (hv : Q k v) :
    EntriesGood Q (insertAppend k v m) := by
  induction m with
  | nil =>
    intro kv hkv x hx
    simp only [insertAppend, List.mem_singleton] at hkv
    subst hkv
    simp only [List.mem_singleton] at hx
    subst hx
    exact hv
  | cons kv0 rest ih =>
    obtain ⟨k0, vs⟩ := kv0
    intro kv hkv x hx
    simp only [insertAppend] at hkv
    by_cases hk : k = k0
    · rw [if_pos hk] at hkv
      rcases List.mem_cons.mp hkv with rfl | hr
      · rcases List.mem_append.mp hx with hx0 | hx1
        · exact hm (k0, vs) (List.mem_cons_self _ _) x hx0
        · simp only [List.mem_singleton] at hx1
          subst hx1
          exact hk ▸ hv
      · exact hm kv (List.mem_cons_of_mem _ hr) x hx
    · rw [if_neg hk] at hkv
      rcases List.mem_cons.mp hkv with rfl | hr
      · exact hm (k0, vs) (List.mem_cons_self _ _) x hx
      · exact ih (fun a ha => hm a (List.mem_cons_of_mem _ ha)) kv hr x hx

theorem bucketMem_insertAppend_of_mem {κ α : Type} [DecidableEq κ]
    {d k : κ} {p v : α} {m : List (κ × List α)}
    (hmem : bucketMem d p m) : bucketMem d p (insertAppend k v m) := by
  induction m with
  | nil =>
    obtain ⟨vs, hvs, _⟩ := hmem
    cases hvs
  | cons kv0 rest ih =>
    obtain ⟨k0, vs0⟩ := kv0
    obtain ⟨vs, hvs, hp⟩ := hmem
    simp only [insertAppend]
    by_cases hk : k = k0
    · rw [if_pos hk]
      rcases List.mem_cons.mp hvs with heq | hr
      · obtain ⟨hd, hv⟩ := Prod.mk.injEq .. ▸ heq
        exact ⟨vs0 ++ [v], by simp [hd], List.mem_append_left _ (hv ▸ hp)⟩
      · exact ⟨vs, List.mem_cons_of_mem _ hr, hp⟩
    · rw [if_neg hk]
      rcases List.mem_cons.mp hvs with heq | hr
      · exact ⟨vs, List.mem_cons.mpr (Or.inl heq), hp⟩
      · obtain ⟨ws, hws, hq⟩ := ih ⟨vs, hr, hp⟩
        exact ⟨ws, List.mem_cons_of_mem _ hws, hq⟩

theorem bucketMem_insertAppend_self {κ α : Type} [DecidableEq κ]
    {k : κ} {v : α} (m : List (κ × List α)) :
    bucketMem k v (insertAppend k v m) := by
  induction m with
  | nil => exact ⟨[v], List.mem_singleton.mpr rfl, List.mem_singleton.mpr rfl⟩
  | cons kv0 rest ih =>
    obtain ⟨k0, vs0⟩ := kv0
    simp only [insertAppend]
    by_cases hk : k = k0
    · rw [if_pos hk]
      exact ⟨vs0 ++ [v], by simp [hk], List.mem_append_right _ (by simp)⟩
    · rw [if_neg hk]
      obtain ⟨ws, hws, hq⟩ := ih
      exact ⟨ws, List.mem_cons_of_mem _ hws, hq⟩

theorem keys_insertAppend {κ α : Type} [DecidableEq κ]
    (k : κ) (v : α) (m : List (κ × List α)) :
    (insertAppend k v m).map Prod.fst =
      if k ∈ m.map Prod.fst then m.map Prod.fst
      else m.map Prod.fst ++ [k] := by
  induction m with
  | nil => simp [insertAppend]
  | cons kv0 rest ih =>
    obtain ⟨k0, vs0⟩ := kv0
    simp only [insertAppend]
    by_cases hk : k = k0
    · subst hk
      simp
    · simp only [if_neg hk, List.map_cons, ih, List.mem_cons]
      by_cases hmem : k ∈ rest.map Prod.fst
      · simp [hmem, hk]
      · simp [hmem, hk]

theorem keysNodup_insertAppend {κ α : Type} [DecidableEq κ]
    {k : κ} {v : α} {m : List (κ × List α)}
    (hm : (m.map Prod.fst).Nodup) :
    ((insertAppend k v m).map Prod.fst).Nodup := by
  rw [keys_insertAppend]
  by_cases hmem : k ∈ m.map Prod.fst
  · simpa [hmem] using hm
  · rw [if_neg hmem]
    refine List.Nodup.append hm (List.nodup_singleton k) ?_
    intro a ha hb
    simp only [List.mem_singleton] at hb
    subst hb
    exact hmem ha

/-- With `Nodup` keys, the bucket stored under a key is unique. -/
theorem bucket_eq_of_keysNodup {κ α : Type}
    {m : List (κ × List α)} (hnd : (m.map Prod.fst).Nodup)
    {d : κ} {vs ws : List α} (h1 : (d, vs) ∈ m) (h2 : (d, ws) ∈ m) :
    vs = ws := by
  induction m with
  | nil => cases h1
  | cons kv0 rest ih =>
    obtain ⟨k0, vs0⟩ := kv0
    simp only [List.map_cons, List.nodup_cons] at hnd
    rcases List.mem_cons.mp h1 with heq1 | hr1 <;>
      rcases List.mem_cons.mp h2 with heq2 | hr2
    · obtain ⟨_, hv1⟩ := Prod.mk.injEq .. ▸ heq1
      obtain ⟨_, hv2⟩ := Prod.mk.injEq .. ▸ heq2
      exact hv1.symm ▸ hv2.symm ▸ rfl
    · obtain ⟨hd1, _⟩ := Prod.mk.injEq .. ▸ heq1
      exact absurd (List.mem_map.mpr ⟨(d, ws), hr2, hd1⟩) hnd.1
    · obtain ⟨hd2, _⟩ := Prod.mk.injEq .. ▸ heq2
      exact absurd (List.mem_map.mpr ⟨(d, vs), hr1, hd2⟩) hnd.1
    · exact ih hnd.2 hr1 hr2

/-! ### Invariants of the hashing stage -/

/-- The bucket key of every member of every bucket produced by the merge
loop is the digest of that member's content. -/
theorem entriesGood_mergeHashesAux (w : World) (h : Content → Digest)
    (l : List Path) (acc : List (Digest × List Path))
    (hacc : EntriesGood (fun d p => ∃ c, w.read p = some c ∧ h c = d) acc) :
    EntriesGood (fun d p => ∃ c, w.read p = some c ∧ h c = d)
      (mergeHashesAux w h acc l) := by
  induction l generalizing acc with
  | nil => exact hacc
  | cons p rest ih =>
    cases hrp : w.read p with
    | none => simpa only [mergeHashesAux, hrp] using ih _ hacc
    | some c =>
      by_cases hc : h c = ""
      · simpa only [mergeHashesAux, hrp, if_pos hc] using ih _ hacc
      · simpa only [mergeHashesAux, hrp, if_neg hc] using
          ih _ (entriesGood_insertAppend hacc ⟨c, hrp, rfl⟩)

theorem keysNodup_mergeHashesAux (w : World) (h : Content → Digest)
    (l : List Path) (acc : List (Digest × List Path))
    (hacc : (acc.map Prod.fst).Nodup) :
    ((mergeHashesAux w h acc l).map Prod.fst).Nodup := by
  induction l generalizing acc with
  | nil => exact hacc
  | cons p rest ih =>
    cases hrp : w.read p with
    | none => simpa only [mergeHashesAux, hrp] using ih _ hacc
    | some c =>
      by_cases hc : h c = ""
      · simpa only [mergeHashesAux, hrp, if_pos hc] using ih _ hacc
      · simpa only [mergeHashesAux, hrp, if_neg hc] using
          ih _ (keysNodup_insertAppend hacc)

theorem bucketMem_mergeHashesAux_of_mem (w : World) (h : Content → Digest)
    (l : List Path) (acc : List (Digest × List Path))
    {d : Digest} {q : Path} (hq : bucketMem d q acc) :
    bucketMem d q (mergeHashesAux w h acc l) := by
  induction l generalizing acc with
  | nil => exact hq
  | cons p rest ih =>
    cases hrp : w.read p with
    | none => simpa only [mergeHashesAux, hrp] using ih _ hq
    | some c =>
      by_cases hc : h c = ""
      · simpa only [mergeHashesAux, hrp, if_pos hc] using ih _ hq
      · simpa only [mergeHashesAux, hrp, if_neg hc] using
          ih _ (bucketMem_insertAppend_of_mem hq)

/-- A completed file whose read succeeds and whose digest is truthy ends
in the bucket of its digest. -/
theorem bucketMem_mergeHashesAux (w : World) (h : Content → Digest)
    {p : Path} {c : Content} (l : List Path)
    (acc : List (Digest × List Path)) (hp : p ∈ l)
    (hr : w.read p = some c) (hne : h c ≠ "") :
    bucketMem (h c) p (mergeHashesAux w h acc l) := by
  induction l generalizing acc with
  | nil => cases hp
  | cons q rest ih =>
    by_cases hqp : q = p
    · subst hqp
      simpa only [mergeHashesAux, hr, if_neg hne] using
        bucketMem_mergeHashesAux_of_mem w h rest _
          (bucketMem_insertAppend_self acc)
    · have hp2 : p ∈ rest := by
        rcases List.mem_cons.mp hp with h0 | h0
        · exact absurd h0.symm hqp
        · exact h0
      cases hrq : w.read q with
      | none => simpa only [mergeHashesAux, hrq] using ih acc hp2
      | some c2 =>
        by_cases hc2 : h c2 = ""
        · simpa only [mergeHashesAux, hrq, if_pos hc2] using ih acc hp2
        · simpa only [mergeHashesAux, hrq, if_neg hc2] using ih _ hp2

/-- A file whose read raises never appears in the merged digest map. -/
theorem not_mem_mergeHashes_of_read_none (w : World) (h : Content → Digest)
    (l : List Path) {p : Path} (hr : w.read p = none) :
    ∀ kv ∈ mergeHashes w h l, p ∉ kv.2 := by
  intro kv hkv hp
  obtain ⟨c, hc, _⟩ :=
    entriesGood_mergeHashesAux w h l [] (by intro kv h0; cases h0) kv hkv p hp
  rw [hr] at hc
  cases hc

/-! ### Invariants of the size-scanning stage -/

theorem entriesGood_sizeScanAux (w : World) (fm : String → Path → Bool)
    (inc exc : Option (List String)) (mn mx : Option Nat)
    (l : List Path) (acc : List (Nat × List Path))
    (hacc : EntriesGood (fun s p => w.stat p = some s) acc) :
    EntriesGood (fun s p => w.stat p = some s)
      (sizeScanAux w fm inc exc mn mx acc l) := by
  induction l generalizing acc with
  | nil => exact hacc
  | cons p rest ih =>
    cases hsp : w.stat p with
    | none => simpa only [sizeScanAux, hsp] using ih _ hacc
    | some size =>
      by_cases hf : passesFilters fm inc exc mn mx p size = true
      · simpa only [sizeScanAux, hsp, if_pos hf] using
          ih _ (entriesGood_insertAppend hacc hsp)
      · simpa only [sizeScanAux, hsp, if_neg hf] using ih _ hacc

theorem keysNodup_sizeScanAux (w : World) (fm : String → Path → Bool)
    (inc exc : Option (List String)) (mn mx : Option Nat)
    (l : List Path) (acc : List (Nat × List Path))
    (hacc : (acc.map Prod.fst).Nodup) :
    ((sizeScanAux w fm inc exc mn mx acc l).map Prod.fst).Nodup := by
  induction l generalizing acc with
  | nil => exact hacc
  | cons p rest ih =>
    cases hsp : w.stat p with
    | none => simpa only [sizeScanAux, hsp] using ih _ hacc
    | some size =>
      by_cases hf : passesFilters fm inc exc mn mx p size = true
      · simpa only [sizeScanAux, hsp, if_pos hf] using
          ih _ (keysNodup_insertAppend hacc)
      · simpa only [sizeScanAux, hsp, if_neg hf] using ih _ hacc

theorem bucketMem_sizeScanAux_of_mem (w : World) (fm : String → Path → Bool)
    (inc exc : Option (List String)) (mn mx : Option Nat)
    (l : List Path) (acc : List (Nat × List Path))
    {s : Nat} {q : Path} (hq : bucketMem s q acc) :
    bucketMem s q (sizeScanAux w fm inc exc mn mx acc l) := by
  induction l generalizing acc with
  | nil => exact hq
  | cons p rest ih =>
    cases hsp : w.stat p with
    | none => simpa only [sizeScanAux, hsp] using ih _ hq
    | some size =>
      by_cases hf : passesFilters fm inc exc mn mx p size = true
      · simpa only [sizeScanAux, hsp, if_pos hf] using
          ih _ (bucketMem_insertAppend_of_mem hq)
      · simpa only [sizeScanAux, hsp, if_neg hf] using ih _ hq

/-- A scanned file whose stat succeeds and which passes all the filters
ends in the bucket of its size. -/
theorem bucketMem_sizeScanAux (w : World) (fm : String → Path → Bool)
    (inc exc : Option (List String)) (mn mx : Option Nat)
    {p : Path} {s : Nat} (l : List Path) (acc : List (Nat × List Path))
    (hp : p ∈ l) (hs : w.stat p = some s)
    (hf : passesFilters fm inc exc mn mx p s = true) :
    bucketMem s p (sizeScanAux w fm inc exc mn mx acc l) := by
  induction l generalizing acc with
  | nil => cases hp
  | cons q rest ih =>
    by_cases hqp : q = p
    · subst hqp
      simpa only [sizeScanAux, hs, if_pos hf] using
        bucketMem_sizeScanAux_of_mem w fm inc exc mn mx rest _
          (bucketMem_insertAppend_self acc)
    · have hp2 : p ∈ rest := by
        rcases List.mem_cons.mp hp with h0 | h0
        · exact absurd h0.symm hqp
        · exact h0
      cases hsq : w.stat q with
      | none => simpa only [sizeScanAux, hsq] using ih acc hp2
      | some size2 =>
        by_cases hf2 : passesFilters fm inc exc mn mx q size2 = true
        · simpa only [sizeScanAux, hsq, if_pos hf2] using ih _ hp2
        · simpa only [sizeScanAux, hsq, if_neg hf2] using ih acc hp2

/-- With no patterns and no size bounds every statted file passes. -/
theorem passesFilters_none (fm : String → Path → Bool) (p : Path) (s : Nat) :
    passesFilters fm none none none none p s = true := rfl

/-! ### Membership in the task list and in the emitted groups -/

theorem mem_hashTasks {p : Path} {m : List (Nat × List Path)} :
    p ∈ hashTasks m ↔ ∃ kv, kv ∈ m ∧ 1 < kv.2.length ∧ p ∈ kv.2 := by
  simp only [hashTasks, List.mem_flatMap, List.mem_filter,
    decide_eq_true_eq]
  constructor
  · rintro ⟨kv, ⟨hkv, hlen⟩, hp⟩
    exact ⟨kv, hkv, hlen, hp⟩
  · rintro ⟨kv, hkv, hlen, hp⟩
    exact ⟨kv, ⟨hkv, hlen⟩, hp⟩

theorem mem_baseGroups {G : List Path} {m : List (Digest × List Path)} :
    G ∈ baseGroups m ↔ ∃ kv, kv ∈ m ∧ 1 < kv.2.length ∧ G = sortPaths kv.2 := by
  simp only [baseGroups, List.mem_map, List.mem_filter, decide_eq_true_eq]
  constructor
  · rintro ⟨g, ⟨⟨kv, hkv, rfl⟩, hlen⟩, rfl⟩
    exact ⟨kv, hkv, hlen, rfl⟩
  · rintro ⟨kv, hkv, hlen, rfl⟩
    exact ⟨kv.2, ⟨⟨kv, hkv, rfl⟩, hlen⟩, rfl⟩

theorem mem_group_duplicates {w : World} {m : List (Digest × List Path)}
    {sbg sbs : Bool} {G : List Path} :
    G ∈ group_duplicates w m sbg sbs ↔
      ∃ kv, kv ∈ m ∧ 1 < kv.2.length ∧ G = sortPaths kv.2 := by
  rw [← mem_baseGroups]
  unfold group_duplicates
  cases sbg with
  | true => simp [List.mem_insertionSort]
  | false =>
    cases sbs with
    | true => simp [List.mem_insertionSort]
    | false => simp

/-! ### Counting lemmas for the deletion stage -/

theorem count_unlink_deleteFileEvents (w : World) (u : Path → Bool)
    (dry : Bool) (q p : Path) :
    (deleteFileEvents w u dry q).count (DelEvent.unlinkCall p)
      = if q = p ∧ (w.stat p).isSome ∧ dry = false then 1 else 0 := by
  by_cases hqp : q = p
  · subst hqp
    cases hs : w.stat q with
    | none => simp [deleteFileEvents, hs, List.count_cons]
    | some s =>
      cases dry with
      | true => simp [deleteFileEvents, hs, List.count_cons]
      | false =>
        by_cases hu : u q = true <;>
          simp [deleteFileEvents, hs, hu, List.count_cons]
  · cases hs : w.stat q with
    | none => simp [deleteFileEvents, hs, List.count_cons, hqp, Ne.symm hqp]
    | some s =>
      cases dry with
      | true => simp [deleteFileEvents, hs, List.count_cons, hqp, Ne.symm hqp]
      | false =>
        by_cases hu : u q = true <;>
          simp [deleteFileEvents, hs, hu, List.count_cons, hqp, Ne.symm hqp]

theorem count_wouldDelete_deleteFileEvents (w : World) (u : Path → Bool)
    (dry : Bool) (q p : Path) :
    (deleteFileEvents w u dry q).count (DelEvent.wouldDeleteLine p)
      = if q = p ∧ (w.stat p).isSome ∧ dry = true then 1 else 0 := by
  by_cases hqp : q = p
  · subst hqp
    cases hs : w.stat q with
    | none => simp [deleteFileEvents, hs, List.count_cons]
    | some s =>
      cases dry with
      | true => simp [deleteFileEvents, hs, List.count_cons]
      | false =>
        by_cases hu : u q = true <;>
          simp [deleteFileEvents, hs, hu, List.count_cons]
  · cases hs : w.stat q with
    | none => simp [deleteFileEvents, hs, List.count_cons, hqp, Ne.symm hqp]
    | some s =>
      cases dry with
      | true => simp [deleteFileEvents, hs, List.count_cons, hqp, Ne.symm hqp]
      | false =>
        by_cases hu : u q = true <;>
          simp [deleteFileEvents, hs, hu, List.count_cons, hqp, Ne.symm hqp]

theorem count_unlink_deleteGroupEvents (w : World) (u : Path → Bool)
    (dry : Bool) (g : List Path) (p : Path) :
    (deleteGroupEvents w u dry g).count (DelEvent.unlinkCall p)
      = if (w.stat p).isSome ∧ dry = false then (g.drop 1).count p else 0 := by
  unfold deleteGroupEvents
  induction g.drop 1 with
  | nil => simp
  | cons q rest ih =>
    rw [List.flatMap_cons, List.count_append, ih,
      count_unlink_deleteFileEvents, List.count_cons]
    by_cases hqp : q = p <;>
      by_cases hcond : (w.stat p).isSome ∧ dry = false <;>
        simp [hqp, hcond, beq_iff_eq]
    omega

theorem count_wouldDelete_deleteGroupEvents (w : World) (u : Path → Bool)
    (dry : Bool) (g : List Path) (p : Path) :
    (deleteGroupEvents w u dry g).count (DelEvent.wouldDeleteLine p)
      = if (w.stat p).isSome ∧ dry = true then (g.drop 1).count p else 0 := by
  unfold deleteGroupEvents
  induction g.drop 1 with
  | nil => simp
  | cons q rest ih =>
    rw [List.flatMap_cons, List.count_append, ih,
      count_wouldDelete_deleteFileEvents, List.count_cons]
    by_cases hqp : q = p <;>
      by_cases hcond : (w.stat p).isSome ∧ dry = true <;>
        simp [hqp, hcond, beq_iff_eq]
    omega

theorem count_unlink_delete_duplicates (w : World) (u : Path → Bool)
    (dry : Bool) (gs : List (List Path)) (p : Path) :
    (delete_duplicates w u dry gs).count (DelEvent.unlinkCall p)
      = if (w.stat p).isSome ∧ dry = false
        then (gs.map (fun g => (g.drop 1).count p)).sum else 0 := by
  unfold delete_duplicates
  induction gs with
  | nil => simp
  | cons g rest ih =>
    rw [List.flatMap_cons, List.count_append, ih,
      count_unlink_deleteGroupEvents, List.map_cons, List.sum_cons]
    by_cases hcond : (w.stat p).isSome ∧ dry = false <;> simp [hcond]

theorem count_wouldDelete_delete_duplicates (w : World) (u : Path → Bool)
    (dry : Bool) (gs : List (List Path)) (p : Path) :
    (delete_duplicates w u dry gs).count (DelEvent.wouldDeleteLine p)
      = if (w.stat p).isSome ∧ dry = true
        then (gs.map (fun g => (g.drop 1).count p)).sum else 0 := by
  unfold delete_duplicates
  induction gs with
  | nil => simp
  | cons g rest ih =>
    rw [List.flatMap_cons, List.count_append, ih,
      count_wouldDelete_deleteGroupEvents, List.map_cons, List.sum_cons]
    by_cases hcond : (w.stat p).isSome ∧ dry = true <;> simp [hcond]

/-! ### Helper lemmas for the zero size bound -/

theorem sizeScanAux_min_zero (w : World) (fm : String → Path → Bool)
    (inc exc : Option (List String)) (mx : Option Nat)
    (l : List Path) (acc : List (Nat × List Path)) :
    sizeScanAux w fm inc exc (some 0) mx acc l
      = sizeScanAux w fm inc exc none mx acc l := by
  induction l generalizing acc with
  | nil => rfl
  | cons p rest ih =>
    cases hsp : w.stat p with
    | none => simp only [sizeScanAux, hsp]; exact ih _
    | some s =>
      have hpf : passesFilters fm inc exc (some 0) mx p s
          = passesFilters fm inc exc none mx p s := rfl
      simp only [sizeScanAux, hsp, hpf]
      by_cases hf : passesFilters fm inc exc none mx p s = true
      · rw [if_pos hf, if_pos hf]; exact ih _
      · rw [if_neg hf, if_neg hf]; exact ih _

theorem sizeScanAux_max_zero (w : World) (fm : String → Path → Bool)
    (inc exc : Option (List String)) (mn : Option Nat)
    (l : List Path) (acc : List (Nat × List Path)) :
    sizeScanAux w fm inc exc mn (some 0) acc l
      = sizeScanAux w fm inc exc mn none acc l := by
  induction l generalizing acc with
  | nil => rfl
  | cons p rest ih =>
    cases hsp : w.stat p with
    | none => simp only [sizeScanAux, hsp]; exact ih _
    | some s =>
      have hpf : passesFilters fm inc exc mn (some 0) p s
          = passesFilters fm inc exc mn none p s := by
        simp [passesFilters, maxExcludes]
      simp only [sizeScanAux, hsp, hpf]
      by_cases hf : passesFilters fm inc exc mn none p s = true
      · rw [if_pos hf, if_pos hf]; exact ih _
      · rw [if_neg hf, if_neg hf]; exact ih _

/-! ### Claim theorems -/

/-- C10: a `min_size` or `max_size` bound of 0 bytes behaves exactly like
no bound at all, because `if min_size and size < min_size` (and the `max`
twin) treats the integer 0 as falsy; in particular a 0-byte file is not
excluded by `min_size = 0`. -/
theorem zero_size_bound_is_no_bound (w : World) (fm : String → Path → Bool)
    (ps : List Path) (inc exc : Option (List String)) (mn mx : Option Nat) :
    group_files_by_size w fm ps inc exc (some 0) mx
        = group_files_by_size w fm ps inc exc none mx
    ∧ group_files_by_size w fm ps inc exc mn (some 0)
        = group_files_by_size w fm ps inc exc mn none
    ∧ minExcludes (some 0) 0 = false ∧ maxExcludes (some 0) 0 = false :=
  ⟨sizeScanAux_min_zero w fm inc exc mx ps [],
   sizeScanAux_max_zero w fm inc exc mn ps [],
   rfl, rfl⟩

/-- The filesystem of the C2 counterexample: the non-keeper `b` exists
for the scanner but its pre-deletion `stat` raises. -/
def statFailWorldB : World :=
  { stat := fun p => if p = "b" then none else some 1
    read := fun _ => none }

/-- C2 counterexample: in the group `[a, b]` the non-keeper `b` is never
passed to `unlink` — the failed pre-deletion `stat` makes the loop
`continue` with only a FAILED report line — refuting the claim that every
non-keeper member is attempted exactly once. -/
theorem nonkeeper_not_unlinked_on_stat_failure :
    ("b" ∈ (([["a", "b"]] : List (List Path)).flatMap (fun g => g.drop 1)))
    ∧ (delete_duplicates statFailWorldB (fun _ => true) false
        [["a", "b"]]).count (DelEvent.unlinkCall "b") = 0 := by
  constructor
  · decide
  · decide

/-- C2 as amended: non-dry-run batch deletion calls `unlink` exactly once
per occurrence of a path as a non-keeper (`group[1:]`) member whose
pre-deletion `stat` succeeds; in particular the keeper of each group is
never passed to `unlink`, and a non-keeper whose `stat` raises is skipped
without an `unlink` attempt. -/
theorem batch_unlinks_exactly_statOk_nonkeepers (w : World)
    (u : Path → Bool) (gs : List (List Path)) (p : Path) :
    (delete_duplicates w u false gs).count (DelEvent.unlinkCall p)
      = if (w.stat p).isSome
        then (gs.map (fun g => (g.drop 1).count p)).sum else 0 := by
  rw [count_unlink_delete_duplicates]
  by_cases hs : (w.stat p).isSome <;> simp [hs]

/-- The filesystem of the C3 counterexample: the non-keeper `y` has a
raising `stat`. -/
def statFailWorldY : World :=
  { stat := fun p => if p = "y" then none else some 1
    read := fun _ => none }

/-- C3 counterexample: in dry-run mode the non-keeper `y` whose `stat`
raises gets zero would-delete lines (it gets a FAILED line instead),
refuting the claim of exactly one would-delete line per non-keeper. -/
theorem dry_run_line_missing_on_stat_failure :
    ("y" ∈ (([["x", "y"]] : List (List Path)).flatMap (fun g => g.drop 1)))
    ∧ (delete_duplicates statFailWorldY (fun _ => true) true
        [["x", "y"]]).count (DelEvent.wouldDeleteLine "y") = 0 := by
  constructor
  · decide
  · decide

/-- C3 as amended: dry-run batch deletion never calls `unlink`, and emits
exactly one would-delete line per occurrence of a path as a non-keeper
member whose pre-deletion `stat` succeeds (a failing `stat` produces a
FAILED line instead). -/
theorem dry_run_no_unlink_one_line_per_statOk_nonkeeper (w : World)
    (u : Path → Bool) (gs : List (List Path)) (p : Path) :
    (delete_duplicates w u true gs).count (DelEvent.unlinkCall p) = 0
    ∧ (delete_duplicates w u true gs).count (DelEvent.wouldDeleteLine p)
      = if (w.stat p).isSome
        then (gs.map (fun g => (g.drop 1).count p)).sum else 0 := by
  constructor
  · rw [count_unlink_delete_duplicates]
    simp
  · rw [count_wouldDelete_delete_duplicates]
    by_cases hs : (w.stat p).isSome <;> simp [hs]

/-- C6: the hashing stage isolates per-file I/O failures: a task whose
read/hash raises is absent from every bucket of the resulting
digest-to-paths map, while every completed task whose read succeeds (and
whose digest is non-empty, as every SHA-256 hex digest is) lands in the
bucket of its digest; the merge is a total function, so the failure never
aborts the stage. -/
theorem hashing_isolates_per_file_failures (w : World)
    (h : Content → Digest) (tasks : List Path) (p : Path) :
    (w.read p = none → ∀ kv ∈ mergeHashes w h tasks, p ∉ kv.2)
    ∧ (∀ c : Content, p ∈ tasks → w.read p = some c → h c ≠ "" →
        ∃ kv, kv ∈ mergeHashes w h tasks ∧ kv.1 = h c ∧ p ∈ kv.2) := by
  constructor
  · intro hr
    exact not_mem_mergeHashes_of_read_none w h tasks hr
  · intro c hp hr hne
    obtain ⟨vs, hvs, hpv⟩ := bucketMem_mergeHashesAux w h tasks [] hp hr hne
    exact ⟨(h c, vs), hvs, rfl, hpv⟩

/-- Digest used by witness filesystems: one more `x` than the content
length, so it is never empty and distinguishes contents of different
lengths. -/
def lenDigest (c : Content) : Digest :=
  String.mk ('x' :: List.replicate c.length 'x')

theorem lenDigest_ne_empty (c : Content) : lenDigest c ≠ "" := by
  intro hcon
  have hdata : 'x' :: List.replicate c.length 'x' = [] :=
    congrArg String.data hcon
  cases hdata

theorem lenDigest_len_inj {c1 c2 : Content}
    (hne : c1.length ≠ c2.length) : lenDigest c1 ≠ lenDigest c2 := by
  intro hcon
  have hdata : 'x' :: List.replicate c1.length 'x'
      = 'x' :: List.replicate c2.length 'x' := congrArg String.data hcon
  have hlen := congrArg List.length hdata
  simp at hlen
  exact hne hlen

/-- The filesystem of the C6 witness. -/
def readFailWorld : World :=
  { stat := fun _ => some 1
    read := fun p => if p = "good" then some [1] else none }

/-- C6 witness: with tasks `good` and `bad`, where reading `bad` raises,
`bad` is in no bucket and `good` is hashed and present. -/
theorem hashing_isolates_per_file_failures_witness :
    (∀ kv ∈ mergeHashes readFailWorld lenDigest ["good", "bad"],
      "bad" ∉ kv.2)
    ∧ ∃ kv, kv ∈ mergeHashes readFailWorld lenDigest ["good", "bad"]
        ∧ kv.1 = lenDigest [1] ∧ "good" ∈ kv.2 :=
  ⟨(hashing_isolates_per_file_failures readFailWorld lenDigest
      ["good", "bad"] "bad").1 rfl,
   (hashing_isolates_per_file_failures readFailWorld lenDigest
      ["good", "bad"] "good").2 [1] (by decide) rfl (lenDigest_ne_empty [1])⟩

/-- C5: two candidate files with distinct statted sizes never share a
bucket of the digest map nor a duplicate group, whatever the completion
order: sizes determine content lengths (coherent filesystem), distinct
lengths give distinct digests (collision-free digest on the inputs), and
every bucket member carries the bucket's digest. -/
theorem distinct_sizes_never_share_bucket_or_group (w : World)
    (h : Content → Digest) (completed : List Path) (sbg sbs : Bool)
    (a b : Path) (sa sb : Nat)
    (hsa : w.stat a = some sa) (hsb : w.stat b = some sb)
    (hne : sa ≠ sb)
    (hcoh : ∀ p c, w.read p = some c → w.stat p = some c.length)
    (hinj : ∀ c1 c2 : Content, c1.length ≠ c2.length → h c1 ≠ h c2) :
    (∀ kv ∈ mergeHashes w h completed, ¬(a ∈ kv.2 ∧ b ∈ kv.2))
    ∧ (∀ G ∈ group_duplicates w (mergeHashes w h completed) sbg sbs,
        ¬(a ∈ G ∧ b ∈ G)) := by
  have hgood := entriesGood_mergeHashesAux w h completed []
    (by intro kv h0; cases h0)
  have hbucket : ∀ kv ∈ mergeHashes w h completed, ¬(a ∈ kv.2 ∧ b ∈ kv.2) := by
    rintro kv hkv ⟨ha, hb⟩
    obtain ⟨ca, hra, hda⟩ := hgood kv hkv a ha
    obtain ⟨cb, hrb, hdb⟩ := hgood kv hkv b hb
    have hla : ca.length = sa := by
      have := (hcoh a ca hra).symm.trans hsa
      exact Option.some.inj this
    have hlb : cb.length = sb := by
      have := (hcoh b cb hrb).symm.trans hsb
      exact Option.some.inj this
    exact hinj ca cb (by rw [hla, hlb]; exact hne) (hda.trans hdb.symm)
  refine ⟨hbucket, ?_⟩
  rintro G hG ⟨ha, hb⟩
  obtain ⟨kv, hkv, _, rfl⟩ := mem_group_duplicates.mp hG
  exact hbucket kv hkv ⟨mem_sortPaths.mp ha, mem_sortPaths.mp hb⟩

/-- The filesystem of the C5 witness: `a` has one byte, `b` has two. -/
def twoSizesRead : Path → Option Content :=
  fun p => if p = "a" then some [1] else if p = "b" then some [2, 2] else none

/-- The C5 witness world derives `stat` from `read`, so it is coherent by
construction. -/
def twoSizesWorld : World :=
  { stat := fun p => (twoSizesRead p).map List.length
    read := twoSizesRead }

/-- C5 witness at a concrete coherent filesystem with a concrete
length-separating digest. -/
theorem distinct_sizes_never_share_bucket_or_group_witness :
    (∀ kv ∈ mergeHashes twoSizesWorld lenDigest ["a", "b"],
      ¬("a" ∈ kv.2 ∧ "b" ∈ kv.2))
    ∧ (∀ G ∈ group_duplicates twoSizesWorld
          (mergeHashes twoSizesWorld lenDigest ["a", "b"]) false false,
        ¬("a" ∈ G ∧ "b" ∈ G)) :=
  distinct_sizes_never_share_bucket_or_group twoSizesWorld lenDigest
    ["a", "b"] false false "a" "b" 1 2 rfl rfl (by decide)
    (fun p c hc => by
      have hc2 : twoSizesRead p = some c := hc
      simp [twoSizesWorld, hc2])
    (fun c1 c2 hlen => lenDigest_len_inj hlen)

/-- The digest map with each bucket list sorted: two runs whose
completion orders differ produce digest maps that agree up to entry order
and in-bucket order, i.e. maps whose `sortBuckets` images are
permutations of each other. -/
def sortBuckets (m : List (Digest × List Path)) : List (Digest × List Path) :=
  m.map (fun kv => (kv.1, sortPaths kv.2))

theorem baseGroups_eq_sortBuckets (m : List (Digest × List Path)) :
    baseGroups m = ((sortBuckets m).map Prod.snd).filter
      (fun g => decide (1 < g.length)) := by
  unfold baseGroups sortBuckets
  rw [List.map_map]
  rw [show (Prod.snd ∘ fun kv : Digest × List Path => (kv.1, sortPaths kv.2))
      = (sortPaths ∘ Prod.snd) from rfl]
  rw [← List.map_map]
  conv_rhs => rw [List.filter_map]
  congr 1
  apply List.filter_congr
  intro g hg
  simp [Function.comp, length_sortPaths]

/-- C8: with the default flags, the grouping stage is deterministic in
the face of hash-completion reordering: any two digest maps that agree up
to entry order and in-bucket order (and any stat worlds, which the
default path never consults) yield the same multiset of groups, every
emitted group is sorted in the path order, and its first element — the
keeper — is the order-minimal member. -/
theorem grouping_deterministic_keeper_lex_min (w v : World)
    (m1 m2 : List (Digest × List Path))
    (hperm : (sortBuckets m1).Perm (sortBuckets m2)) :
    (group_duplicates w m1 false false).Perm
      (group_duplicates v m2 false false)
    ∧ ∀ g ∈ group_duplicates w m1 false false,
        List.Sorted PathLe g
        ∧ ∀ p ∈ g, ∀ hd, g.head? = some hd → PathLe hd p := by
  constructor
  · show (baseGroups m1).Perm (baseGroups m2)
    rw [baseGroups_eq_sortBuckets, baseGroups_eq_sortBuckets]
    exact (hperm.map Prod.snd).filter _
  · intro g hg
    obtain ⟨kv, _, _, rfl⟩ := mem_group_duplicates.mp hg
    exact ⟨sorted_sortPaths kv.2,
      fun p hp hd hhd => sorted_head_min (sorted_sortPaths kv.2) hhd hp⟩

/-- C8 witness: two concrete digest maps that differ in entry order and
in-bucket order. -/
theorem grouping_deterministic_keeper_lex_min_witness :
    (group_duplicates twoSizesWorld
        [("d", ["b", "a"]), ("e", ["k", "j"])] false false).Perm
      (group_duplicates twoSizesWorld
        [("e", ["j", "k"]), ("d", ["a", "b"])] false false)
    ∧ ∀ g ∈ group_duplicates twoSizesWorld
        [("d", ["b", "a"]), ("e", ["k", "j"])] false false,
        List.Sorted PathLe g
        ∧ ∀ p ∈ g, ∀ hd, g.head? = some hd → PathLe hd p :=
  grouping_deterministic_keeper_lex_min twoSizesWorld twoSizesWorld
    [("d", ["b", "a"]), ("e", ["k", "j"])]
    [("e", ["j", "k"]), ("d", ["a", "b"])] (by decide)

/-- C4: all candidate files of one byte-identical content (at least two
of them, whatever their names) end together in exactly one duplicate
group, under every hash-completion order: they share a size bucket, so
all of them are hashed; they share a digest, so all of them land in one
hash bucket, which survives the two-member threshold and becomes a single
group; uniqueness follows because the digest map has distinct keys and
every bucket member carries the bucket digest. -/
theorem identical_content_converges_to_one_group (w : World)
    (h : Content → Digest) (fm : String → Path → Bool)
    (cands S completed : List Path) (c : Content) (sbg sbs : Bool)
    (hSnd : S.Nodup) (hlen : 2 ≤ S.length)
    (hSsub : ∀ p ∈ S, p ∈ cands)
    (hread : ∀ p ∈ S, w.read p = some c)
    (hstat : ∀ p ∈ S, w.stat p = some c.length)
    (hne : ∀ c0 : Content, h c0 ≠ "")
    (hcomp : completed.Perm
      (hashTasks (group_files_by_size w fm cands none none none none))) :
    ∃ G, G ∈ group_duplicates w (mergeHashes w h completed) sbg sbs
      ∧ (∀ p ∈ S, p ∈ G)
      ∧ ∀ G2 ∈ group_duplicates w (mergeHashes w h completed) sbg sbs,
          (∀ p ∈ S, p ∈ G2) → G2 = G := by
  have hSizeKeys : (((group_files_by_size w fm cands none none none none)).map
      Prod.fst).Nodup :=
    keysNodup_sizeScanAux w fm none none none none cands [] (by simp)
  have hbmem : ∀ p ∈ S,
      bucketMem c.length p (group_files_by_size w fm cands none none none none) :=
    fun p hp => bucketMem_sizeScanAux w fm none none none none cands []
      (hSsub p hp) (hstat p hp) (passesFilters_none fm p c.length)
  have hS0 : S ≠ [] := by
    intro h0
    rw [h0] at hlen
    simp at hlen
  obtain ⟨p0, hp0⟩ := List.exists_mem_of_ne_nil S hS0
  obtain ⟨vs, hvs, hp0v⟩ := hbmem p0 hp0
  have hSvs : ∀ p ∈ S, p ∈ vs := by
    intro p hp
    obtain ⟨vs2, hvs2, hpv2⟩ := hbmem p hp
    rw [bucket_eq_of_keysNodup hSizeKeys hvs hvs2]
    exact hpv2
  have hvslen : 1 < vs.length :=
    lt_of_lt_of_le (by omega) ((hSnd.subperm fun p hp => hSvs p hp).length_le)
  have hcompleted : ∀ p ∈ S, p ∈ completed := fun p hp =>
    hcomp.mem_iff.mpr (mem_hashTasks.mpr
      ⟨(c.length, vs), hvs, hvslen, hSvs p hp⟩)
  have hHashKeys : ((mergeHashes w h completed).map Prod.fst).Nodup :=
    keysNodup_mergeHashesAux w h completed [] (by simp)
  have hGood := entriesGood_mergeHashesAux w h completed []
    (by intro kv h0; cases h0)
  have hbh : ∀ p ∈ S, bucketMem (h c) p (mergeHashes w h completed) :=
    fun p hp => bucketMem_mergeHashesAux w h completed []
      (hcompleted p hp) (hread p hp) (hne c)
  obtain ⟨B, hB, hp0B⟩ := hbh p0 hp0
  have hSB : ∀ p ∈ S, p ∈ B := by
    intro p hp
    obtain ⟨B2, hB2, hpB2⟩ := hbh p hp
    rw [bucket_eq_of_keysNodup hHashKeys hB hB2]
    exact hpB2
  have hBlen : 1 < B.length :=
    lt_of_lt_of_le (by omega) ((hSnd.subperm fun p hp => hSB p hp).length_le)
  refine ⟨sortPaths B,
    mem_group_duplicates.mpr ⟨(h c, B), hB, hBlen, rfl⟩,
    fun p hp => mem_sortPaths.mpr (hSB p hp), ?_⟩
  intro G2 hG2 hSG2
  obtain ⟨kv, hkv, hkvlen, rfl⟩ := mem_group_duplicates.mp hG2
  obtain ⟨k2, v2⟩ := kv
  have hp0v2 : p0 ∈ v2 := mem_sortPaths.mp (hSG2 p0 hp0)
  obtain ⟨c0, hrc0, hd0⟩ := hGood (k2, v2) hkv p0 hp0v2
  have hc0 : c0 = c := Option.some.inj ((hrc0.symm).trans (hread p0 hp0))
  have hk2 : k2 = h c := by
    have hd1 : h c0 = k2 := hd0
    rw [hc0] at hd1
    exact hd1.symm
  subst hk2
  show sortPaths v2 = sortPaths B
  rw [bucket_eq_of_keysNodup hHashKeys hkv hB]

/-- Content map of the C4 witness: files `a` and `b` are byte-identical. -/
def dupContentRead : Path → Option Content :=
  fun p => if p = "a" || p = "b" then some [7] else none

/-- The C4 witness world, with `stat` coherent with `read`. -/
def dupContentWorld : World :=
  { stat := fun p => (dupContentRead p).map List.length
    read := dupContentRead }

/-- C4 witness: the two byte-identical candidate files converge into
exactly one group under the canonical completion order. -/
theorem identical_content_converges_witness :
    ∃ G, G ∈ group_duplicates dupContentWorld
        (mergeHashes dupContentWorld lenDigest
          (hashTasks (group_files_by_size dupContentWorld
            (fun _ _ => false) ["a", "b"] none none none none))) false false
      ∧ (∀ p ∈ (["a", "b"] : List Path), p ∈ G)
      ∧ ∀ G2 ∈ group_duplicates dupContentWorld
          (mergeHashes dupContentWorld lenDigest
            (hashTasks (group_files_by_size dupContentWorld
              (fun _ _ => false) ["a", "b"] none none none none))) false false,
          (∀ p ∈ (["a", "b"] : List Path), p ∈ G2) → G2 = G :=
  identical_content_converges_to_one_group dupContentWorld lenDigest
    (fun _ _ => false) ["a", "b"] ["a", "b"] _ [7] false false
    (by decide) (by decide) (by decide) (by decide) (by decide)
    lenDigest_ne_empty (List.Perm.refl _)

/-- C7: the size-bound grammar of `_normalize_size` requires a trailing B
in the unit: the bare decimal and binary suffixes K/M/G/T and Ki/Mi/Gi/Ti
claimed by the spec are rejected with a ValueError, although the
underlying converter `str_file_size_to_int` (per its docstring and the
repository tests) accepts them; the B-suffixed forms scale by 1000^n and
1024^n as claimed, and malformed strings raise. -/
theorem size_bound_parsing_behavior :
    normalize_size (some "1K") = none
    ∧ normalize_size (some "2Ki") = none
    ∧ normalize_size (some "1M") = none
    ∧ str_file_size_to_int "1K" = some 1000
    ∧ str_file_size_to_int "2Ki" = some 2048
    ∧ str_file_size_to_int "1M" = some 1000000
    ∧ normalize_size (some "1KB") = some (some 1000)
    ∧ normalize_size (some "1MB") = some (some (1000 ^ 2))
    ∧ normalize_size (some "1GB") = some (some (1000 ^ 3))
    ∧ normalize_size (some "1TB") = some (some (1000 ^ 4))
    ∧ normalize_size (some "1KiB") = some (some 1024)
    ∧ normalize_size (some "1MiB") = some (some (1024 ^ 2))
    ∧ normalize_size (some "1GiB") = some (some (1024 ^ 3))
    ∧ normalize_size (some "1TiB") = some (some (1024 ^ 4))
    ∧ normalize_size (some "  2.5 MB ") = some (some 2500000)
    ∧ normalize_size (some "abc") = none
    ∧ normalize_size (some ".") = none
    ∧ normalize_size (some "") = none
    ∧ normalize_size (some "5IB") = none
    ∧ normalize_size none = some none := by
  decide

/-- Content map of the C1 world: `a` and `b` have different bytes but the
digest function collides on them. -/
def collisionRead : Path → Option Content :=
  fun p => if p = "a" then some [0] else if p = "b" then some [1] else none

/-- The C1 world, with `stat` coherent with `read`. -/
def collisionWorld : World :=
  { stat := fun p => (collisionRead p).map List.length
    read := collisionRead }

/-- C1: with `verify_content` enabled and two files of equal size but
different bytes sharing a digest, `run` still returns them in one group:
the duplicates list is computed before verification, `file_groups` is
cleared, `_verify_content` is applied to that cleared state and its
result never reaches the returned list — and even applied to the real
bucket, `_verify_content` reassembles all comparison classes under the
single digest key, so the two files stay in one bucket there too. -/
theorem verification_never_separates_digest_collisions :
    (run collisionWorld (fun _ => "d") (fun _ => true) (fun _ _ => false)
      ["a", "b"] none none none none false false false false true false)
      = some ⟨[["a", "b"]], [], []⟩
    ∧ collisionWorld.read "a" ≠ collisionWorld.read "b"
    ∧ verify_content collisionWorld [("d", ["a", "b"])]
      = [("d", ["a", "b"])] := by
  refine ⟨by decide, by decide, ?_⟩
  simp [verify_content, verifyPasses, files_are_identical, insertAppend,
    collisionWorld, collisionRead]

end DupFinder
